import Mathlib

/-!
Verification of the transfer-function algebra specified for the
`xTransferFunction` class (matrices of rational transfer functions).
The implementation module `xferfcn` is not present in the repository
snapshot (only its test suite `TestXferFcn.py` is), so every operation
below is modelled from the specification and checked against the
concrete scenarios recorded in the test suite.
-/

namespace XferFcn

attribute [local semireducible] Rat.mul Rat.add Rat.sub Rat.inv Rat.ofScientific

/-- A polynomial: real (here rational) coefficients, highest degree first. -/
abbrev Poly := List ℚ

/-- Modelled from the spec: `Truncate(poly)` (the `_truncatecoeff` helper of
the missing `xferfcn` module) strips leading zero coefficients and returns
`[0.]` if all coefficients are zero. -/
def truncate : Poly → Poly
  | [] => [0]
  | c :: p => if c = 0 then truncate p else c :: p

/-- Coefficient of degree `k` of a highest-degree-first coefficient list
(`0` beyond the length). -/
def coeffLow (p : Poly) (k : ℕ) : ℚ := p.reverse.getD k 0

/-- Modelled from the spec: `Multiply(p, q)` on polynomials (the missing
module's convolution, as in `numpy.convolve`): full convolution, result
degree `= deg p + deg q`. -/
def polyMul (p q : Poly) : Poly :=
  ((List.range (p.length + q.length - 1)).map
    (fun k => ((List.range (k + 1)).map
      (fun m => coeffLow p m * coeffLow q (k - m))).sum)).reverse

/-- Modelled from the spec: `Add(p, q)` on polynomials (the missing module's
`polyadd` helper): aligns the two coefficient lists by their lowest-order
term (right-aligned) and sums coefficient-wise; the result is truncated. -/
def polyAdd (p q : Poly) : Poly :=
  truncate (((List.range (max p.length q.length)).map
    (fun k => coeffLow p k + coeffLow q k)).reverse)

/-- Coefficient-wise negation of a polynomial. -/
def polyNeg (p : Poly) : Poly := p.map (fun c => -c)

/-- Scalar multiple of a polynomial. -/
def polyScale (s : ℚ) (p : Poly) : Poly := p.map (fun c => s * c)

/-- Polynomial subtraction: add the coefficient-wise negation. -/
def polySub (p q : Poly) : Poly := polyAdd p (polyNeg q)

/-- Complex numbers with rational parts, an exact model of the
floating-point complex numbers used for frequency evaluation. -/
structure CQ where
  re : ℚ
  im : ℚ
deriving DecidableEq

instance : Zero CQ := ⟨⟨0, 0⟩⟩

instance : One CQ := ⟨⟨1, 0⟩⟩

instance : Add CQ := ⟨fun z w => ⟨z.re + w.re, z.im + w.im⟩⟩

instance : Neg CQ := ⟨fun z => ⟨-z.re, -z.im⟩⟩

instance : Sub CQ := ⟨fun z w => ⟨z.re - w.re, z.im - w.im⟩⟩

instance : Mul CQ := ⟨fun z w => ⟨z.re * w.re - z.im * w.im, z.re * w.im + z.im * w.re⟩⟩

/-- Complex reciprocal via the conjugate (maps `0` to `0`). -/
def CQ.inv (z : CQ) : CQ :=
  ⟨z.re / (z.re * z.re + z.im * z.im), -z.im / (z.re * z.re + z.im * z.im)⟩

instance : Div CQ := ⟨fun z w => z * CQ.inv w⟩

/-- Modelled from the spec: `Evaluate(poly, z)` (the missing module's use of
`numpy.polyval`): Horner-style evaluation of a highest-degree-first
coefficient list at a complex point. -/
def polyEval (p : Poly) (z : CQ) : CQ :=
  p.foldl (fun acc c => acc * z + ⟨c, 0⟩) 0

/-- Raw constructor input: an arbitrarily nested structure of numbers,
modelling the duck-typed scalar/list arguments of the constructor. -/
inductive RawInput where
  | atom (x : ℚ)
  | list (xs : List RawInput)

/-- Interpret a list of raw items as a flat coefficient list, if every
item is a number. -/
def seqNums : List RawInput → Option Poly
  | [] => some []
  | RawInput.atom x :: l => (seqNums l).map (fun p => x :: p)
  | RawInput.list _ :: _ => none

/-- Classify a raw input as a flat coefficient sequence. -/
def asPoly? : RawInput → Option Poly
  | .atom _ => none
  | .list xs => seqNums xs

/-- Interpret a list of raw items as a row of polynomials. -/
def seqPolys : List RawInput → Option (List Poly)
  | [] => some []
  | r :: l =>
    match asPoly? r with
    | some p => (seqPolys l).map (fun ps => p :: ps)
    | none => none

/-- Classify a raw input as a row of polynomials. -/
def asRow? : RawInput → Option (List Poly)
  | .atom _ => none
  | .list xs => seqPolys xs

/-- Interpret a list of raw items as rows of polynomials. -/
def seqRows : List RawInput → Option (List (List Poly))
  | [] => some []
  | r :: l =>
    match asRow? r with
    | some ps => (seqRows l).map (fun m => ps :: m)
    | none => none

/-- Classify a raw input as a fully nested `outputs × inputs × coefficients`
structure. -/
def asNested? : RawInput → Option (List (List Poly))
  | .atom _ => none
  | .list xs => seqRows xs

/-- Classify a raw input as a bare scalar. -/
def asScalar? : RawInput → Option ℚ
  | .atom x => some x
  | .list _ => none

/-- The three error kinds of the specification. -/
inductive ErrKind where
  | typeKind
  | dimKind
  | valueKind
deriving DecidableEq

/-- Modelled from the spec: the constructor's input normalization. A bare
number or a flat coefficient sequence is broadcast into a `1 × 1` nested
form; a fully nested structure is taken as is; anything else is a
type-kind error. -/
def normalizeInput (r : RawInput) : Except ErrKind (List (List Poly)) :=
  match asScalar? r with
  | some x => .ok [[[x]]]
  | none =>
    match asPoly? r with
    | some p => .ok [[p]]
    | none =>
      match asNested? r with
      | some m => .ok m
      | none => .error .typeKind

/-- Modelled from the spec: the constructor's dimension validation. The
numerator and denominator grids must have the same number of rows, every
row must have as many columns as the first numerator row, and the
numerator and denominator rows must agree column count by column count. -/
def dimsOk (n d : List (List Poly)) : Bool :=
  n.length == d.length &&
    (List.zip n d).all
      (fun pr => pr.1.length == (n.headD []).length && pr.2.length == pr.1.length)

/-- A transfer-function matrix: a grid of numerator polynomials and a grid
of denominator polynomials, indexed `(output, input)`. -/
structure TFMatrix where
  num : List (List Poly)
  den : List (List Poly)
deriving DecidableEq

/-- Number of outputs (rows). -/
def TFMatrix.outputs (A : TFMatrix) : ℕ := A.num.length

/-- Number of inputs (columns). -/
def TFMatrix.inputs (A : TFMatrix) : ℕ := (A.num.headD []).length

/-- The rectangularity invariant of a constructed transfer-function matrix:
numerator and denominator grids have the same positive number of rows, and
every row of either grid has exactly `inputs` entries. -/
def TFMatrix.wf (A : TFMatrix) : Prop :=
  0 < A.num.length ∧ A.den.length = A.num.length ∧
    (∀ r ∈ A.num, r.length = A.inputs) ∧ (∀ r ∈ A.den, r.length = A.inputs)

instance (A : TFMatrix) : Decidable A.wf := by
  unfold TFMatrix.wf; infer_instance

/-- Numerator polynomial at `(i, j)` (`[]` out of range). -/
def nPoly (A : TFMatrix) (i j : ℕ) : Poly := (A.num.getD i []).getD j []

/-- Denominator polynomial at `(i, j)` (`[]` out of range). -/
def dPoly (A : TFMatrix) (i j : ℕ) : Poly := (A.den.getD i []).getD j []

/-- Normalization applied to every stored entry: truncate the numerator;
if it is the zero polynomial, store denominator `[1.]` (the constructor's
zero-numerator rule, visible in the expected data of `testSubMIMO` and
`testTruncateCoeff2`), otherwise truncate the denominator. -/
def buildEntry (e : Poly × Poly) : Poly × Poly :=
  let n := truncate e.1
  (n, if n = [0] then [1] else truncate e.2)

/-- Assemble a grid of `(numerator, denominator)` entries into a matrix,
normalizing every entry as the constructor does. -/
def finishGrid (g : List (List (Poly × Poly))) : TFMatrix :=
  ⟨g.map (fun r => r.map (fun e => (buildEntry e).1)),
   g.map (fun r => r.map (fun e => (buildEntry e).2))⟩

/-- Modelled from the spec: `Construct(num_input, den_input)`, the
`xTransferFunction` constructor. Classify and broadcast both inputs
(type-kind error on failure), validate the dimensions against each other
(dimension-kind error on mismatch), reject any denominator entry whose
coefficients are all zero (value-kind error), then truncate every
polynomial, storing denominator `[1.]` for zero-numerator entries. -/
def construct (a b : RawInput) : Except ErrKind TFMatrix :=
  match normalizeInput a with
  | .error e => .error e
  | .ok n =>
    match normalizeInput b with
    | .error e => .error e
    | .ok d =>
      if dimsOk n d then
        if d.any (fun r => r.any (fun q => truncate q == ([0] : Poly))) then
          .error .valueKind
        else
          .ok (finishGrid (List.zipWith List.zip n d))
      else
        .error .dimKind

/-- Encode a coefficient list as raw constructor input. -/
def polyEnc (p : Poly) : RawInput := .list (p.map .atom)

/-- Encode a grid of coefficient lists as raw (fully nested) constructor
input. -/
def nestedEnc (m : List (List Poly)) : RawInput :=
  .list (m.map (fun r => .list (r.map polyEnc)))

/-- Pair each numerator polynomial with its denominator polynomial. -/
def gridOf (A : TFMatrix) : List (List (Poly × Poly)) :=
  List.zipWith List.zip A.num A.den

/-- Product of two polynomial fractions: numerators and denominators
convolve. -/
def fracMul (a b : Poly × Poly) : Poly × Poly :=
  (polyMul a.1 b.1, polyMul a.2 b.2)

/-- Sum of two polynomial fractions by cross-multiplication to the common
denominator, with no common-factor cancellation. -/
def fracAdd (a b : Poly × Poly) : Poly × Poly :=
  (polyAdd (polyMul a.1 b.2) (polyMul b.1 a.2), polyMul a.2 b.2)

/-- Difference of two polynomial fractions: add the negated second
numerator. -/
def fracSub (a b : Poly × Poly) : Poly × Poly :=
  fracAdd a (polyNeg b.1, b.2)

/-- Combine two equal-shaped matrices entry by entry, normalizing the
resulting entries as the constructor does. -/
def combine (op : Poly × Poly → Poly × Poly → Poly × Poly) (A B : TFMatrix) : TFMatrix :=
  finishGrid (List.zipWith (fun ra rb => List.zipWith op ra rb) (gridOf A) (gridOf B))

/-- Modelled from the spec: `Add(A, B)` (the `__add__` operator of the
missing module). Requires identical `outputs` and `inputs` (dimension-kind
error otherwise); each entry is the cross-multiplied sum
`num_A ⊗ den_B + num_B ⊗ den_A` over `den_A ⊗ den_B`, truncated. -/
def addM (A B : TFMatrix) : Except ErrKind TFMatrix :=
  if A.outputs = B.outputs ∧ A.inputs = B.inputs then
    .ok (combine fracAdd A B)
  else
    .error .dimKind

/-- Modelled from the spec: `Subtract(A, B)` (the `__sub__` operator):
like `Add` with the second numerator negated. -/
def subM (A B : TFMatrix) : Except ErrKind TFMatrix :=
  if A.outputs = B.outputs ∧ A.inputs = B.inputs then
    .ok (combine fracSub A B)
  else
    .error .dimKind

/-- One entry of a matrix product: the sum over the shared index of the
entrywise fraction products, accumulated by cross-multiplication. -/
def mulEntry (A B : TFMatrix) (i j : ℕ) : Poly × Poly :=
  (List.range A.inputs).foldl
    (fun acc k => fracAdd acc (fracMul (nPoly A i k, dPoly A i k) (nPoly B k j, dPoly B k j)))
    ([0], [1])

/-- Modelled from the spec: `Multiply(A, B)` (the `__mul__` operator).
Requires `A.inputs = B.outputs` (dimension-kind error otherwise); entry
`(i, j)` of the result is the fraction-ring dot product of row `i` of `A`
with column `j` of `B`, truncated. -/
def mulM (A B : TFMatrix) : Except ErrKind TFMatrix :=
  if A.inputs = B.outputs then
    .ok (finishGrid ((List.range A.outputs).map
      (fun i => (List.range B.inputs).map (fun j => mulEntry A B i j))))
  else
    .error .dimKind

/-- Modelled from the spec: `Feedback(G, H, sign)` (the `feedback` method),
SISO only. Closed loop: numerator `num_G ⊗ den_H`, denominator
`den_G ⊗ den_H − sign · (num_G ⊗ num_H)`; `sign = −1` is the default
(negative feedback). Non-SISO operands are a dimension-kind error. -/
def feedback (G H : TFMatrix) (sign : ℚ) : Except ErrKind TFMatrix :=
  match G.num, G.den, H.num, H.den with
  | [[nG]], [[dG]], [[nH]], [[dH]] =>
    .ok (finishGrid
      [[(polyMul nG dH, polySub (polyMul dG dH) (polyScale sign (polyMul nG nH)))]])
  | _, _, _, _ => .error .dimKind

/-- Error-propagating map over a list (the loop bodies of the evaluation
routines, which abort on the first failing entry). -/
def mapE (f : α → Except ErrKind β) : List α → Except ErrKind (List β)
  | [] => .ok []
  | a :: l =>
    match f a with
    | .error e => .error e
    | .ok b =>
      match mapE f l with
      | .error e => .error e
      | .ok bs => .ok (b :: bs)

/-- Evaluate one entry `num / den` at a complex point; a denominator that
evaluates to exactly zero is a value-kind error (pole at the evaluation
point). -/
def evalEntry (e : Poly × Poly) (s : CQ) : Except ErrKind CQ :=
  if polyEval e.2 s = 0 then .error .valueKind
  else .ok (polyEval e.1 s / polyEval e.2 s)

/-- Modelled from the spec: `EvaluateAt(A, s)`: the `outputs × inputs`
matrix of entrywise Horner evaluations `num(s) / den(s)`. -/
def evalAt (A : TFMatrix) (s : CQ) : Except ErrKind (List (List CQ)) :=
  mapE (fun pr => mapE (fun e => evalEntry e s) (pr.1.zip pr.2)) (A.num.zip A.den)

/-- Modelled from the spec: the `evalfr` method evaluates the matrix on the
imaginary axis at `s = j·ω`. -/
def evalfr (A : TFMatrix) (ω : ℚ) : Except ErrKind (List (List CQ)) :=
  evalAt A ⟨0, ω⟩

/-- Modelled from the spec: the complex core of the `freqresp` method: for
each entry `(i, j)` and each frequency `ω` in the input sequence, the value
of that entry at `j·ω`, shaped `outputs × inputs × len(omegas)`. -/
def freqrespC (A : TFMatrix) (omegas : List ℚ) : Except ErrKind (List (List (List CQ))) :=
  mapE (fun pr => mapE (fun e => mapE (fun ω => evalEntry e ⟨0, ω⟩) omegas) (pr.1.zip pr.2))
    (A.num.zip A.den)

/-- The exact complex number represented by a `CQ` value. -/
noncomputable def CQ.toComplex (z : CQ) : ℂ := ⟨(z.re : ℝ), (z.im : ℝ)⟩

/-- Magnitude (absolute value) of an evaluated entry. -/
noncomputable def cqAbs (z : CQ) : ℝ := Complex.abs z.toComplex

/-- Phase (angle in radians, principal value) of an evaluated entry. -/
noncomputable def cqArg (z : CQ) : ℝ := Complex.arg z.toComplex

/-- Magnitudes of a block of evaluated complex values. -/
noncomputable def magOf (c : List (List (List CQ))) : List (List (List ℝ)) :=
  c.map (fun r => r.map (fun e => e.map cqAbs))

/-- Phases of a block of evaluated complex values. -/
noncomputable def phaseOf (c : List (List (List CQ))) : List (List (List ℝ)) :=
  c.map (fun r => r.map (fun e => e.map cqArg))

/-- The triple returned by the `freqresp` method: parallel magnitude and
phase blocks, and the frequency sequence. -/
structure FreqResponse where
  mag : List (List (List ℝ))
  phase : List (List (List ℝ))
  omega : List ℚ

/-- Modelled from the spec: `FrequencyResponse(A, omegas)` (the `freqresp`
method): magnitude and phase of every entry at every `j·ω`, together with
the input frequency sequence passed through unchanged. -/
noncomputable def freqresp (A : TFMatrix) (omegas : List ℚ) : Except ErrKind FreqResponse :=
  (freqrespC A omegas).map (fun c => ⟨magOf c, phaseOf c, omegas⟩)

instance {ε α : Type} [DecidableEq ε] [DecidableEq α] : DecidableEq (Except ε α) := fun a b =>
  match a, b with
  | .ok x, .ok y =>
    if h : x = y then .isTrue (by rw [h]) else .isFalse (fun hc => h (Except.ok.inj hc))
  | .error x, .error y =>
    if h : x = y then .isTrue (by rw [h]) else .isFalse (fun hc => h (Except.error.inj hc))
  | .ok _, .error _ => .isFalse (fun hc => Except.noConfusion hc)
  | .error _, .ok _ => .isFalse (fun hc => Except.noConfusion hc)

/-! ### Basic lemmas about the polynomial utilities -/

theorem truncate_truncate (p : Poly) : truncate (truncate p) = truncate p := by
  induction p with
  | nil => simp [truncate]
  | cons c p ih =>
    by_cases hc : c = 0
    · simp [truncate, hc, ih]
    · simp [truncate, hc]

theorem truncate_polyAdd (p q : Poly) : truncate (polyAdd p q) = polyAdd p q := by
  unfold polyAdd
  exact truncate_truncate _

theorem truncate_polySub (p q : Poly) : truncate (polySub p q) = polySub p q := by
  unfold polySub
  exact truncate_polyAdd _ _

theorem truncate_dropWhile (p : Poly) :
    truncate p =
      if p.dropWhile (fun c => c == 0) = [] then [0] else p.dropWhile (fun c => c == 0) := by
  induction p with
  | nil => simp [truncate]
  | cons c p ih =>
    by_cases hc : c = 0
    · simpa [truncate, hc, List.dropWhile_cons] using ih
    · simp [truncate, hc, List.dropWhile_cons]

theorem listSum_range (n : ℕ) (f : ℕ → ℚ) :
    ((List.range n).map f).sum = ∑ m ∈ Finset.range n, f m := by
  rfl

theorem convCoeff_comm (p q : Poly) (k : ℕ) :
    ∑ m ∈ Finset.range (k + 1), coeffLow p m * coeffLow q (k - m)
      = ∑ m ∈ Finset.range (k + 1), coeffLow q m * coeffLow p (k - m) := by
  rw [← Finset.sum_range_reflect]
  apply Finset.sum_congr rfl
  intro m hm
  have hm' : m ≤ k := Nat.lt_succ_iff.mp (Finset.mem_range.mp hm)
  have h1 : k + 1 - 1 - m = k - m := by omega
  rw [h1, Nat.sub_sub_self hm', mul_comm]

theorem polyMul_comm (p q : Poly) : polyMul p q = polyMul q p := by
  unfold polyMul
  rw [Nat.add_comm q.length p.length]
  simp only [listSum_range, convCoeff_comm p q]

/-! ### Lemmas about list access and error-propagating maps -/

theorem getD_map_lt {α β : Type} (f : α → β) (l : List α) (i : ℕ) (h : i < l.length)
    (d : α) (d' : β) : (l.map f).getD i d' = f (l.getD i d) := by
  induction l generalizing i with
  | nil => simp at h
  | cons a l ih =>
    cases i with
    | zero => simp
    | succ n => simpa using ih n (by simpa using h)

theorem getD_zipWith_lt {α β γ : Type} (f : α → β → γ) (as : List α) (bs : List β) (i : ℕ)
    (ha : i < as.length) (hb : i < bs.length) (da : α) (db : β) (dg : γ) :
    (List.zipWith f as bs).getD i dg = f (as.getD i da) (bs.getD i db) := by
  induction as generalizing bs i with
  | nil => simp at ha
  | cons a as ih =>
    cases bs with
    | nil => simp at hb
    | cons b bs =>
      cases i with
      | zero => simp
      | succ n => simpa using ih bs n (by simpa using ha) (by simpa using hb)

theorem getD_zip_lt {α β : Type} (as : List α) (bs : List β) (i : ℕ)
    (ha : i < as.length) (hb : i < bs.length) (da : α) (db : β) :
    (as.zip bs).getD i (da, db) = (as.getD i da, bs.getD i db) := by
  simpa [List.zip] using getD_zipWith_lt Prod.mk as bs i ha hb da db (da, db)

theorem getD_mem_lt {α : Type} (l : List α) (i : ℕ) (h : i < l.length) (d : α) :
    l.getD i d ∈ l := by
  induction l generalizing i with
  | nil => simp at h
  | cons a l ih =>
    cases i with
    | zero => simp
    | succ n => exact List.mem_cons_of_mem a (ih n (by simpa using h))

theorem mapE_ok_length {α β : Type} (f : α → Except ErrKind β) (l : List α) (bs : List β)
    (h : mapE f l = .ok bs) : bs.length = l.length := by
  induction l generalizing bs with
  | nil =>
    simp only [mapE] at h
    cases h
    rfl
  | cons a l ih =>
    simp only [mapE] at h
    cases hfa : f a with
    | error e => rw [hfa] at h; cases h
    | ok b =>
      rw [hfa] at h
      cases hml : mapE f l with
      | error e => rw [hml] at h; cases h
      | ok bs' =>
        rw [hml] at h
        cases h
        simp [ih bs' hml]

theorem mapE_ok_mem {α β : Type} (f : α → Except ErrKind β) (l : List α) (bs : List β)
    (h : mapE f l = .ok bs) : ∀ b ∈ bs, ∃ a ∈ l, f a = .ok b := by
  induction l generalizing bs with
  | nil =>
    simp only [mapE] at h
    cases h
    simp
  | cons a l ih =>
    simp only [mapE] at h
    cases hfa : f a with
    | error e => rw [hfa] at h; cases h
    | ok b =>
      rw [hfa] at h
      cases hml : mapE f l with
      | error e => rw [hml] at h; cases h
      | ok bs' =>
        rw [hml] at h
        cases h
        intro x hx
        rcases List.mem_cons.mp hx with hx | hx
        · exact ⟨a, by simp, by rw [hfa, hx]⟩
        · rcases ih bs' hml x hx with ⟨a', ha', hfa'⟩
          exact ⟨a', List.mem_cons_of_mem a ha', hfa'⟩

theorem mapE_map {α β : Type} (f : α → Except ErrKind β) (g : α → β) (l : List α)
    (h : ∀ a ∈ l, f a = .ok (g a)) : mapE f l = .ok (l.map g) := by
  induction l with
  | nil => simp [mapE]
  | cons a l ih =>
    simp only [mapE]
    rw [h a (by simp), ih (fun x hx => h x (List.mem_cons_of_mem a hx))]
    simp

/-! ### Lemmas about input classification and construction -/

theorem seqNums_map_atom (p : Poly) : seqNums (p.map .atom) = some p := by
  induction p with
  | nil => simp [seqNums]
  | cons c p ih => simp [seqNums, ih]

theorem asPoly?_polyEnc (p : Poly) : asPoly? (polyEnc p) = some p := by
  simp [asPoly?, polyEnc, seqNums_map_atom]

theorem seqPolys_map_polyEnc (r : List Poly) : seqPolys (r.map polyEnc) = some r := by
  induction r with
  | nil => simp [seqPolys]
  | cons p r ih => simp [seqPolys, asPoly?_polyEnc, ih]

theorem asRow?_rowEnc (r : List Poly) :
    asRow? (.list (r.map polyEnc)) = some r := by
  simp [asRow?, seqPolys_map_polyEnc]

theorem seqRows_map_rowEnc (m : List (List Poly)) :
    seqRows (m.map (fun r => .list (r.map polyEnc))) = some m := by
  induction m with
  | nil => simp [seqRows]
  | cons r m ih => simp [seqRows, asRow?_rowEnc, ih]

theorem normalizeInput_nestedEnc (m : List (List Poly)) (hm : m ≠ []) :
    normalizeInput (nestedEnc m) = .ok m := by
  have hs : asScalar? (nestedEnc m) = none := rfl
  have hp : asPoly? (nestedEnc m) = none := by
    cases m with
    | nil => exact absurd rfl hm
    | cons r m' => rfl
  have hn : asNested? (nestedEnc m) = some m := by
    simp [asNested?, nestedEnc, seqRows_map_rowEnc]
  simp [normalizeInput, hs, hp, hn]

/-- An input that is neither a bare scalar, a flat coefficient sequence,
nor a fully nested structure. -/
def badInput (r : RawInput) : Prop :=
  asScalar? r = none ∧ asPoly? r = none ∧ asNested? r = none

theorem normalizeInput_badInput {r : RawInput} (h : badInput r) :
    normalizeInput r = .error .typeKind := by
  obtain ⟨h1, h2, h3⟩ := h
  simp [normalizeInput, h1, h2, h3]

theorem normalizeInput_error {r : RawInput} {e : ErrKind}
    (h : normalizeInput r = .error e) : e = .typeKind := by
  unfold normalizeInput at h
  cases hs : asScalar? r <;> rw [hs] at h
  · cases hp : asPoly? r <;> rw [hp] at h
    · cases hn : asNested? r <;> rw [hn] at h
      · exact (Except.error.inj h).symm
      · cases h
    · cases h
  · cases h

theorem finishGrid_truncated (g : List (List (Poly × Poly))) :
    (∀ r ∈ (finishGrid g).num, ∀ q ∈ r, truncate q = q) ∧
      (∀ r ∈ (finishGrid g).den, ∀ q ∈ r, truncate q = q) := by
  constructor
  · intro r hr q hq
    simp only [finishGrid, List.mem_map] at hr
    obtain ⟨r', _, hr'⟩ := hr
    rw [← hr'] at hq
    simp only [List.mem_map] at hq
    obtain ⟨e, _, he⟩ := hq
    rw [← he]
    exact truncate_truncate _
  · intro r hr q hq
    simp only [finishGrid, List.mem_map] at hr
    obtain ⟨r', _, hr'⟩ := hr
    rw [← hr'] at hq
    simp only [List.mem_map] at hq
    obtain ⟨e, _, he⟩ := hq
    rw [← he]
    simp only [buildEntry]
    by_cases h0 : truncate e.1 = [0]
    · simp [h0, truncate]
    · simp only [h0, if_false]
      exact truncate_truncate _

theorem buildEntry_fst (e : Poly × Poly) : (buildEntry e).1 = truncate e.1 := rfl

theorem buildEntry_snd (e : Poly × Poly) :
    (buildEntry e).2 = if truncate e.1 = [0] then [1] else truncate e.2 := rfl

theorem fracAdd_mk (n1 d1 n2 d2 : Poly) :
    fracAdd (n1, d1) (n2, d2)
      = (polyAdd (polyMul n1 d2) (polyMul n2 d1), polyMul d1 d2) := rfl

theorem gridOf_length (A : TFMatrix) (hw : A.wf) : (gridOf A).length = A.outputs := by
  obtain ⟨-, hlen, -, -⟩ := hw
  simp [gridOf, List.length_zipWith, hlen, TFMatrix.outputs]

theorem gridOf_getD (A : TFMatrix) (hw : A.wf) (i : ℕ) (hi : i < A.outputs) :
    (gridOf A).getD i [] = (A.num.getD i []).zip (A.den.getD i []) := by
  exact getD_zipWith_lt List.zip A.num A.den i hi (by rw [hw.2.1]; exact hi) [] [] []

theorem gridOf_row_length (A : TFMatrix) (hw : A.wf) (i : ℕ) (hi : i < A.outputs) :
    ((gridOf A).getD i []).length = A.inputs := by
  rw [gridOf_getD A hw i hi, List.length_zip]
  have h1 := hw.2.2.1 _ (getD_mem_lt A.num i hi [])
  have h2 := hw.2.2.2 _ (getD_mem_lt A.den i (by rw [hw.2.1]; exact hi) [])
  rw [h1, h2]
  exact min_self _

theorem gridOf_entry (A : TFMatrix) (hw : A.wf) (i j : ℕ) (hi : i < A.outputs)
    (hj : j < A.inputs) :
    ((gridOf A).getD i []).getD j ([], []) = (nPoly A i j, dPoly A i j) := by
  rw [gridOf_getD A hw i hi]
  exact getD_zip_lt _ _ j
    (by rw [hw.2.2.1 _ (getD_mem_lt A.num i hi [])]; exact hj)
    (by rw [hw.2.2.2 _ (getD_mem_lt A.den i (by rw [hw.2.1]; exact hi) [])]; exact hj) [] []

theorem combine_entry (op : Poly × Poly → Poly × Poly → Poly × Poly) (A B : TFMatrix)
    (hwA : A.wf) (hwB : B.wf) (houts : A.outputs = B.outputs) (hins : A.inputs = B.inputs)
    (i j : ℕ) (hi : i < A.outputs) (hj : j < A.inputs) :
    nPoly (combine op A B) i j
        = (buildEntry (op (nPoly A i j, dPoly A i j) (nPoly B i j, dPoly B i j))).1 ∧
      dPoly (combine op A B) i j
        = (buildEntry (op (nPoly A i j, dPoly A i j) (nPoly B i j, dPoly B i j))).2 := by
  set g := List.zipWith (fun ra rb => List.zipWith op ra rb) (gridOf A) (gridOf B) with hg
  have hiB : i < B.outputs := houts ▸ hi
  have hjB : j < B.inputs := hins ▸ hj
  have hglen : g.length = A.outputs := by
    rw [hg, List.length_zipWith, gridOf_length A hwA, gridOf_length B hwB, ← houts]
    simp
  have hrow : g.getD i [] = List.zipWith op ((gridOf A).getD i []) ((gridOf B).getD i []) := by
    rw [hg]
    exact getD_zipWith_lt _ _ _ i (by rw [gridOf_length A hwA]; exact hi)
      (by rw [gridOf_length B hwB]; exact hiB) [] [] []
  have hrowlen : (g.getD i []).length = A.inputs := by
    rw [hrow, List.length_zipWith, gridOf_row_length A hwA i hi,
      gridOf_row_length B hwB i hiB, ← hins]
    simp
  have hentry : (g.getD i []).getD j ([], [])
      = op (nPoly A i j, dPoly A i j) (nPoly B i j, dPoly B i j) := by
    rw [hrow, getD_zipWith_lt op _ _ j (by rw [gridOf_row_length A hwA i hi]; exact hj)
        (by rw [gridOf_row_length B hwB i hiB]; exact hjB) ([], []) ([], []) ([], []),
      gridOf_entry A hwA i j hi hj, gridOf_entry B hwB i j hiB hjB]
  have hnum : (combine op A B).num = g.map (fun r => r.map (fun e => (buildEntry e).1)) := by
    rw [hg]; rfl
  have hden : (combine op A B).den = g.map (fun r => r.map (fun e => (buildEntry e).2)) := by
    rw [hg]; rfl
  constructor
  · show ((combine op A B).num.getD i []).getD j [] = _
    rw [hnum, getD_map_lt _ g i (by rw [hglen]; exact hi) [] [],
      getD_map_lt _ (g.getD i []) j (by rw [hrowlen]; exact hj) ([], []) [], hentry]
  · show ((combine op A B).den.getD i []).getD j [] = _
    rw [hden, getD_map_lt _ g i (by rw [hglen]; exact hi) [] [],
      getD_map_lt _ (g.getD i []) j (by rw [hrowlen]; exact hj) ([], []) [], hentry]

theorem zip_num_den_length (A : TFMatrix) (hw : A.wf) :
    (A.num.zip A.den).length = A.outputs := by
  obtain ⟨-, hlen, -, -⟩ := hw
  simp [List.length_zip, hlen, TFMatrix.outputs]

theorem mem_zip_num_den (A : TFMatrix) (hw : A.wf) {pr : List Poly × List Poly}
    (h : pr ∈ A.num.zip A.den) : pr.1.length = A.inputs ∧ pr.2.length = A.inputs := by
  cases pr with
  | mk rn rd =>
    obtain ⟨h1, h2⟩ := List.of_mem_zip h
    exact ⟨hw.2.2.1 _ h1, hw.2.2.2 _ h2⟩

theorem freqrespC_shapes (A : TFMatrix) (omegas : List ℚ) (c : List (List (List CQ)))
    (hw : A.wf) (h : freqrespC A omegas = .ok c) :
    c.length = A.outputs ∧ (∀ m ∈ c, m.length = A.inputs) ∧
      (∀ m ∈ c, ∀ e ∈ m, e.length = omegas.length) := by
  refine ⟨?_, ?_, ?_⟩
  · rw [mapE_ok_length _ _ _ h, zip_num_den_length A hw]
  · intro m hm
    obtain ⟨pr, hpr, hok⟩ := mapE_ok_mem _ _ _ h m hm
    rw [mapE_ok_length _ _ _ hok, List.length_zip]
    obtain ⟨h1, h2⟩ := mem_zip_num_den A hw hpr
    simp [h1, h2]
  · intro m hm e he
    obtain ⟨pr, hpr, hok⟩ := mapE_ok_mem _ _ _ h m hm
    obtain ⟨ee, hee, hok2⟩ := mapE_ok_mem _ _ _ hok e he
    exact mapE_ok_length _ _ _ hok2

theorem evalAt_ok (A : TFMatrix) (s : CQ)
    (hden : ∀ r ∈ A.den, ∀ d ∈ r, polyEval d s ≠ 0) :
    evalAt A s = .ok ((A.num.zip A.den).map
      (fun pr => (pr.1.zip pr.2).map (fun e => polyEval e.1 s / polyEval e.2 s))) := by
  apply mapE_map
  intro pr hpr
  apply mapE_map
  intro e he
  have hpr2 : pr.2 ∈ A.den := by
    cases pr with
    | mk a b => exact (List.of_mem_zip hpr).2
  have h2 : e.2 ∈ pr.2 := by
    cases e with
    | mk x y => exact (List.of_mem_zip he).2
  have hne : ¬ polyEval e.2 s = 0 := hden _ hpr2 _ h2
  simp [evalEntry, hne]

theorem construct_ok_finishGrid {a b : RawInput} {A : TFMatrix}
    (h : construct a b = .ok A) :
    ∃ g, A = finishGrid g := by
  unfold construct at h
  split at h
  · cases h
  · split at h
    · cases h
    · split at h
      · split at h
        · cases h
        · exact ⟨_, (Except.ok.inj h).symm⟩
      · cases h

theorem evalAt_entry (A : TFMatrix) (s : CQ) (hw : A.wf) (i j : ℕ)
    (hi : i < A.outputs) (hj : j < A.inputs) :
    (((A.num.zip A.den).map
          (fun pr => (pr.1.zip pr.2).map
            (fun e => polyEval e.1 s / polyEval e.2 s))).getD i []).getD j 0
      = polyEval (nPoly A i j) s / polyEval (dPoly A i j) s := by
  have hiden : i < A.den.length := by rw [hw.2.1]; exact hi
  have hzlen : i < (A.num.zip A.den).length := by rw [zip_num_den_length A hw]; exact hi
  rw [getD_map_lt _ _ i hzlen ([], []) [], getD_zip_lt _ _ i hi hiden [] []]
  have hn : j < (A.num.getD i []).length := by
    rw [hw.2.2.1 _ (getD_mem_lt A.num i hi [])]; exact hj
  have hd : j < (A.den.getD i []).length := by
    rw [hw.2.2.2 _ (getD_mem_lt A.den i hiden [])]; exact hj
  rw [getD_map_lt _ _ j (by rw [List.length_zip]; exact lt_min hn hd) ([], []) 0,
    getD_zip_lt _ _ j hn hd [] []]
  rfl

/-! ### Concrete systems from the test suite -/

/-- `sys1` of `testAddSISO` / `testMulSISO` / `testEvalFrSISO`. -/
def sysA : TFMatrix := ⟨[[[1, 3, 5]]], [[[1, 6, 2, -1]]]⟩

/-- `sys2` of `testAddSISO` / `testMulSISO`. -/
def sysB : TFMatrix := ⟨[[[-1, 3]]], [[[1, 0, -1]]]⟩

/-- `sys1` of `testFeedbackSISO`. -/
def sysG : TFMatrix := ⟨[[[-1, 4]]], [[[1, 3, 5]]]⟩

/-- `sys2` of `testFeedbackSISO`. -/
def sysH : TFMatrix := ⟨[[[2, 3, 0]]], [[[1, -3, 4, 0]]]⟩

/-- A simple well-formed system `1 / (s + 1)` used to witness the
frequency-response theorems. -/
def wSys : TFMatrix := ⟨[[[1]]], [[[1, 1]]]⟩

/-! ### Claims -/

/-- Claim C1, counterexample: the claimed closed-loop formula
(numerator `num_G ⊗ den_H`, denominator
`den_G ⊗ den_H − sign · (num_G ⊗ num_H)`) fails for `G = 0/2`, `H = 1/1`:
the zero-numerator normalization stores denominator `[1.]`, not
`den_G ⊗ den_H = [2.]`. -/
theorem C1_counterexample :
    feedback ⟨[[[0]]], [[[2]]]⟩ ⟨[[[1]]], [[[1]]]⟩ (-1)
      ≠ .ok ⟨[[polyMul [0] [1]]],
             [[polySub (polyMul [2] [1]) (polyScale (-1) (polyMul [0] [1]))]]⟩ := by
  decide

/-- Claim C1, amended: for SISO `G` and `H`, `Feedback(G, H, sign)` returns
numerator `truncate (num_G ⊗ den_H)` and denominator
`den_G ⊗ den_H − sign · (num_G ⊗ num_H)`, except that a zero closed-loop
numerator forces denominator `[1.]`; concretely, for
`G = TF([-1,4],[1,3,5])` and `H = TF([2,3,0],[1,-3,4,0])` the default
`sign = -1` yields `[-1,7,-16,16,0] / [1,0,-2,2,32,0]` and `sign = +1`
yields denominator `[1,0,2,-8,8,0]`. -/
theorem C1_feedback_formula :
    (∀ nG dG nH dH : Poly, ∀ s : ℚ,
      feedback ⟨[[nG]], [[dG]]⟩ ⟨[[nH]], [[dH]]⟩ s
        = .ok ⟨[[truncate (polyMul nG dH)]],
               [[if truncate (polyMul nG dH) = [0] then [1]
                 else polySub (polyMul dG dH) (polyScale s (polyMul nG nH))]]⟩)
    ∧ construct (polyEnc [-1, 4]) (polyEnc [1, 3, 5]) = .ok sysG
    ∧ construct (polyEnc [2, 3, 0]) (polyEnc [1, -3, 4, 0]) = .ok sysH
    ∧ feedback sysG sysH (-1) = .ok ⟨[[[-1, 7, -16, 16, 0]]], [[[1, 0, -2, 2, 32, 0]]]⟩
    ∧ feedback sysG sysH 1 = .ok ⟨[[[-1, 7, -16, 16, 0]]], [[[1, 0, 2, -8, 8, 0]]]⟩ := by
  refine ⟨?_, by decide, by decide, by decide, by decide⟩
  intro nG dG nH dH s
  show Except.ok (finishGrid
      [[(polyMul nG dH, polySub (polyMul dG dH) (polyScale s (polyMul nG nH)))]]) = _
  simp [finishGrid, buildEntry, truncate_polySub]

/-- Claim C10: multiplication of SISO (`1 × 1`) systems is commutative at
the level of exact coefficient arrays, and concretely
`sys1 * sys2 = [-1,0,4,15] / [1,6,1,-7,-2,1]` (`testMulSISO`), and
`2/1 * 1/4 = 2/4` (`testMulScalar`). -/
theorem C10_mul_siso_comm :
    (∀ nA dA nB dB : Poly,
        mulM ⟨[[nA]], [[dA]]⟩ ⟨[[nB]], [[dB]]⟩ = mulM ⟨[[nB]], [[dB]]⟩ ⟨[[nA]], [[dA]]⟩)
    ∧ mulM sysA sysB = .ok ⟨[[[-1, 0, 4, 15]]], [[[1, 6, 1, -7, -2, 1]]]⟩
    ∧ mulM ⟨[[[2]]], [[[1]]]⟩ ⟨[[[1]]], [[[4]]]⟩ = .ok ⟨[[[2]]], [[[4]]]⟩ := by
  refine ⟨?_, by decide, by decide⟩
  intro nA dA nB dB
  have h : ∀ n1 d1 n2 d2 : Poly,
      mulM ⟨[[n1]], [[d1]]⟩ ⟨[[n2]], [[d2]]⟩
        = .ok (finishGrid [[fracAdd ([0], [1]) (polyMul n1 n2, polyMul d1 d2)]]) :=
    fun n1 d1 n2 d2 => rfl
  rw [h, h, polyMul_comm nB nA, polyMul_comm dB dA]

/-- Claim C5: every shape mismatch fails with a dimension-kind error: at
construction for outer or per-row mismatches, for `Add`/`Subtract` in both
operand orders when shapes are not identical, and for `Multiply` when the
left operand's inputs differ from the right operand's outputs; with the
concrete rejections of `testInconsistentDimension`,
`testInconsistentColumns` and `testAddInconsistentDimension`. -/
theorem C5_dimension_errors :
    (∀ n d : List (List Poly), n ≠ [] → d ≠ [] → dimsOk n d = false →
        construct (nestedEnc n) (nestedEnc d) = .error .dimKind)
    ∧ (∀ A B : TFMatrix, ¬(A.outputs = B.outputs ∧ A.inputs = B.inputs) →
        addM A B = .error .dimKind ∧ subM A B = .error .dimKind ∧
          addM B A = .error .dimKind ∧ subM B A = .error .dimKind)
    ∧ (∀ A B : TFMatrix, A.inputs ≠ B.outputs → mulM A B = .error .dimKind)
    ∧ construct (nestedEnc [[[1]]]) (nestedEnc [[[1], [2, 3]]]) = .error .dimKind
    ∧ construct (.atom 1) (nestedEnc [[[1]], [[2], [3]]]) = .error .dimKind
    ∧ addM ⟨[[[1, 2]]], [[[4, 5]]]⟩ ⟨[[[4, 3]], [[1, 2]]], [[[1, 6]], [[2, 4]]]⟩
        = .error .dimKind := by
  refine ⟨?_, ?_, ?_, by decide, by decide, by decide⟩
  · intro n d hn hd hdim
    unfold construct
    rw [normalizeInput_nestedEnc n hn, normalizeInput_nestedEnc d hd]
    simp [hdim]
  · intro A B hAB
    have hBA : ¬(B.outputs = A.outputs ∧ B.inputs = A.inputs) := by
      intro hc
      exact hAB ⟨hc.1.symm, hc.2.symm⟩
    exact ⟨by simp [addM, hAB], by simp [subM, hAB], by simp [addM, hBA],
      by simp [subM, hBA]⟩
  · intro A B h
    simp [mulM, h]

/-- Claim C6: construction fails with a value-kind error whenever some
denominator entry truncates to the zero polynomial; concretely
`Construct(1., 0.)` and the nested input of `testZeroDenominator` fail. -/
theorem C6_zero_denominator :
    (∀ n d : List (List Poly), n ≠ [] → d ≠ [] → dimsOk n d = true →
        (∃ r ∈ d, ∃ q ∈ r, truncate q = [0]) →
        construct (nestedEnc n) (nestedEnc d) = .error .valueKind)
    ∧ construct (.atom 1) (.atom 0) = .error .valueKind
    ∧ construct (nestedEnc [[[1], [2, 3]], [[-1, 4], [3, 2]]])
        (nestedEnc [[[1, 0], [0]], [[0, 0], [2]]]) = .error .valueKind := by
  refine ⟨?_, by decide, by decide⟩
  intro n d hn hd hdim hex
  unfold construct
  rw [normalizeInput_nestedEnc n hn, normalizeInput_nestedEnc d hd]
  have hany : (d.any fun r => r.any fun q => truncate q == ([0] : Poly)) = true := by
    rw [List.any_eq_true]
    obtain ⟨r, hr, q, hq, htr⟩ := hex
    refine ⟨r, hr, ?_⟩
    rw [List.any_eq_true]
    exact ⟨q, hq, by rw [beq_iff_eq]; exact htr⟩
  simp [hdim, hany]

/-- Claim C7: construction fails with a type-kind error when an input is
neither a scalar, a flat coefficient sequence, nor a triply nested
structure; in particular the plain 2-D numeric grids of `testBadInputType`
are rejected. -/
theorem C7_bad_input_type :
    (∀ a b : RawInput, badInput a ∨ badInput b → construct a b = .error .typeKind)
    ∧ construct (.list [.list [.atom 0, .atom 1], .list [.atom 2, .atom 3]])
        (.list [.list [.atom 5, .atom 2], .list [.atom 3, .atom 0]])
        = .error .typeKind := by
  refine ⟨?_, by decide⟩
  intro a b hab
  rcases hab with ha | hb
  · unfold construct
    rw [normalizeInput_badInput ha]
  · unfold construct
    cases hna : normalizeInput a with
    | error e => rw [normalizeInput_error hna]
    | ok n => rw [normalizeInput_badInput hb]

/-- Claim C8: `Truncate` is idempotent, strips exactly the leading zero
coefficients (yielding `[0.]` when all coefficients are zero), satisfies
the two concrete examples, and every polynomial stored by a successful
construction is a fixed point of `Truncate` (with the concrete stored
forms of `testTruncateCoeff1` and `testTruncateCoeff2`). -/
theorem C8_truncate_spec :
    (∀ p : Poly, truncate (truncate p) = truncate p)
    ∧ truncate [0, 0, 1, 2] = [1, 2]
    ∧ truncate [0, 0, 0] = [0]
    ∧ (∀ p : Poly, truncate p =
        if p.dropWhile (fun c => c == 0) = [] then [0] else p.dropWhile (fun c => c == 0))
    ∧ (∀ a b : RawInput, ∀ A : TFMatrix, construct a b = .ok A →
        (∀ r ∈ A.num, ∀ q ∈ r, truncate q = q) ∧ (∀ r ∈ A.den, ∀ q ∈ r, truncate q = q))
    ∧ construct (polyEnc [0, 0, 1, 2]) (nestedEnc [[[0, 0, 0, 3, 2, 1]]])
        = .ok ⟨[[[1, 2]]], [[[3, 2, 1]]]⟩
    ∧ construct (polyEnc [0, 0, 0]) (.atom 1) = .ok ⟨[[[0]]], [[[1]]]⟩ := by
  refine ⟨truncate_truncate, by decide, by decide, truncate_dropWhile, ?_, by decide,
    by decide⟩
  intro a b A h
  obtain ⟨g, hg⟩ := construct_ok_finishGrid h
  rw [hg]
  exact finishGrid_truncated g

/-- Witness for C8: the construction of `testTruncateCoeff1` succeeds and
its stored polynomials are fixed points of `Truncate`. -/
theorem C8_witness :
    construct (polyEnc [0, 0, 1, 2]) (nestedEnc [[[0, 0, 0, 3, 2, 1]]])
        = .ok ⟨[[[1, 2]]], [[[3, 2, 1]]]⟩
    ∧ ((∀ r ∈ (⟨[[[1, 2]]], [[[3, 2, 1]]]⟩ : TFMatrix).num, ∀ q ∈ r, truncate q = q)
        ∧ (∀ r ∈ (⟨[[[1, 2]]], [[[3, 2, 1]]]⟩ : TFMatrix).den, ∀ q ∈ r, truncate q = q)) := by
  have h : construct (polyEnc [0, 0, 1, 2]) (nestedEnc [[[0, 0, 0, 3, 2, 1]]])
      = .ok ⟨[[[1, 2]]], [[[3, 2, 1]]]⟩ := by decide
  exact ⟨h, C8_truncate_spec.2.2.2.2.1 _ _ _ h⟩

/-- Witness for C5: the concrete mismatches of the test suite are rejected
through the general dimension-error statements. -/
theorem C5_witness :
    construct (nestedEnc [[[1]]]) (nestedEnc [[[1]], [[2, 3]]]) = .error .dimKind
    ∧ (addM ⟨[[[1, 2]]], [[[4, 5]]]⟩ ⟨[[[4, 3]], [[1, 2]]], [[[1, 6]], [[2, 4]]]⟩
        = .error .dimKind
      ∧ subM ⟨[[[1, 2]]], [[[4, 5]]]⟩ ⟨[[[4, 3]], [[1, 2]]], [[[1, 6]], [[2, 4]]]⟩
        = .error .dimKind
      ∧ addM ⟨[[[4, 3]], [[1, 2]]], [[[1, 6]], [[2, 4]]]⟩ ⟨[[[1, 2]]], [[[4, 5]]]⟩
        = .error .dimKind
      ∧ subM ⟨[[[4, 3]], [[1, 2]]], [[[1, 6]], [[2, 4]]]⟩ ⟨[[[1, 2]]], [[[4, 5]]]⟩
        = .error .dimKind)
    ∧ mulM ⟨[[[1, 2], [4, 5]], [[2, 5], [4, 3]]], [[[6, 2], [4, 1]], [[6, 7], [2, 4]]]⟩
        ⟨[[[1]], [[2]], [[3]]], [[[4]], [[5]], [[6]]]⟩ = .error .dimKind :=
  ⟨C5_dimension_errors.1 [[[1]]] [[[1]], [[2, 3]]] (by decide) (by decide) (by decide),
   C5_dimension_errors.2.1 _ _ (by decide),
   C5_dimension_errors.2.2.1 _ _ (by decide)⟩

/-- Witness for C6: the nested zero-denominator input of
`testZeroDenominator` is rejected through the general statement. -/
theorem C6_witness :
    construct (nestedEnc [[[1], [2, 3]], [[-1, 4], [3, 2]]])
        (nestedEnc [[[1, 0], [0]], [[0, 0], [2]]]) = .error .valueKind :=
  C6_zero_denominator.1 _ _ (by decide) (by decide) (by decide) (by decide)

/-- Witness for C7: a mixed scalar/sequence input is rejected through the
general statement. -/
theorem C7_witness :
    construct (.atom 1) (.list [.atom 0, .list []]) = .error .typeKind :=
  C7_bad_input_type.1 _ _ (Or.inr (by exact ⟨by decide, by decide, by decide⟩))

/-- Claim C2, counterexample: the claimed entry formula for `Add` fails for
`1/2 + (-1)/2`: the numerators cancel, so the zero-numerator normalization
stores denominator `[1.]`, not `truncate (den_A ⊗ den_B) = [4.]`. -/
theorem C2_counterexample :
    addM ⟨[[[1]]], [[[2]]]⟩ ⟨[[[-1]]], [[[2]]]⟩
      ≠ .ok ⟨[[polyAdd (polyMul [1] [2]) (polyMul [-1] [2])]],
             [[truncate (polyMul [2] [2])]]⟩ := by
  decide

/-- Claim C2, amended: for equal-shaped `A` and `B`, each entry of
`Add(A, B)` has numerator the truncation of
`num_A ⊗ den_B + num_B ⊗ den_A` and denominator the truncation of
`den_A ⊗ den_B`, except that an entry whose numerator truncates to the
zero polynomial is stored with denominator `[1.]`; no common-factor
cancellation is performed, and concretely
`TF([1,3,5],[1,6,2,-1]) + TF([-1,3],[1,0,-1])
  = [20,4,-8] / [1,6,1,-7,-2,1]`. -/
theorem C2_add_entries :
    (∀ A B : TFMatrix, A.wf → B.wf → A.outputs = B.outputs → A.inputs = B.inputs →
      ∃ C, addM A B = .ok C ∧ ∀ i j, i < A.outputs → j < A.inputs →
        nPoly C i j = polyAdd (polyMul (nPoly A i j) (dPoly B i j))
            (polyMul (nPoly B i j) (dPoly A i j)) ∧
          dPoly C i j = (if polyAdd (polyMul (nPoly A i j) (dPoly B i j))
                (polyMul (nPoly B i j) (dPoly A i j)) = [0] then [1]
            else truncate (polyMul (dPoly A i j) (dPoly B i j))))
    ∧ construct (polyEnc [1, 3, 5]) (polyEnc [1, 6, 2, -1]) = .ok sysA
    ∧ construct (polyEnc [-1, 3]) (polyEnc [1, 0, -1]) = .ok sysB
    ∧ addM sysA sysB = .ok ⟨[[[20, 4, -8]]], [[[1, 6, 1, -7, -2, 1]]]⟩ := by
  refine ⟨?_, by decide, by decide, by decide⟩
  intro A B hwA hwB houts hins
  refine ⟨combine fracAdd A B, by simp [addM, houts, hins], ?_⟩
  intro i j hi hj
  obtain ⟨h1, h2⟩ := combine_entry fracAdd A B hwA hwB houts hins i j hi hj
  constructor
  · rw [h1]
    simp only [buildEntry_fst, fracAdd_mk, truncate_polyAdd]
  · rw [h2]
    simp only [buildEntry_snd, fracAdd_mk, truncate_polyAdd]

/-- Witness for C2: the general entry formula applied to the two SISO
systems of `testAddSISO`. -/
theorem C2_witness :
    (sysA.wf ∧ sysB.wf ∧ sysA.outputs = sysB.outputs ∧ sysA.inputs = sysB.inputs)
    ∧ ∃ C, addM sysA sysB = .ok C ∧ ∀ i j, i < sysA.outputs → j < sysA.inputs →
        nPoly C i j = polyAdd (polyMul (nPoly sysA i j) (dPoly sysB i j))
            (polyMul (nPoly sysB i j) (dPoly sysA i j)) ∧
          dPoly C i j = (if polyAdd (polyMul (nPoly sysA i j) (dPoly sysB i j))
                (polyMul (nPoly sysB i j) (dPoly sysA i j)) = [0] then [1]
            else truncate (polyMul (dPoly sysA i j) (dPoly sysB i j))) :=
  ⟨⟨by decide, by decide, by decide, by decide⟩,
   C2_add_entries.1 sysA sysB (by decide) (by decide) (by decide) (by decide)⟩

/-- Claim C3: every phase value produced by `freqresp` is a principal-value
angle in the half-open interval `(-π, π]`. -/
theorem C3_phase_range :
    ∀ A : TFMatrix, ∀ omegas : List ℚ, ∀ r : FreqResponse,
      freqresp A omegas = .ok r →
      ∀ p1 ∈ r.phase, ∀ p2 ∈ p1, ∀ x ∈ p2, -Real.pi < x ∧ x ≤ Real.pi := by
  intro A omegas r h p1 h1 p2 h2 x hx
  obtain ⟨c, hc⟩ : ∃ c, r.phase = phaseOf c := by
    unfold freqresp at h
    cases hfc : freqrespC A omegas <;> rw [hfc] at h
    · simp [Except.map] at h
    · rename_i c
      simp only [Except.map] at h
      exact ⟨c, by rw [← Except.ok.inj h]⟩
  rw [hc] at h1
  simp only [phaseOf, List.mem_map] at h1
  obtain ⟨row, -, hrow⟩ := h1
  rw [← hrow] at h2
  simp only [List.mem_map] at h2
  obtain ⟨ent, -, hent⟩ := h2
  rw [← hent] at hx
  simp only [List.mem_map] at hx
  obtain ⟨z, -, hz⟩ := hx
  rw [← hz]
  exact ⟨Complex.neg_pi_lt_arg _, Complex.arg_le_pi _⟩

/-- Witness for C3: the frequency response of `1 / (s + 1)` at `ω = 1`
succeeds and its phases are principal values. -/
theorem C3_witness :
    freqresp wSys [1]
        = .ok ⟨magOf [[[⟨1/2, -1/2⟩]]], phaseOf [[[⟨1/2, -1/2⟩]]], [1]⟩
    ∧ ∀ p1 ∈ phaseOf [[[⟨1/2, -1/2⟩]]], ∀ p2 ∈ p1, ∀ x ∈ p2,
        -Real.pi < x ∧ x ≤ Real.pi := by
  have hfc : freqrespC wSys [1] = .ok [[[⟨1/2, -1/2⟩]]] := by decide
  have h : freqresp wSys [1]
      = .ok ⟨magOf [[[⟨1/2, -1/2⟩]]], phaseOf [[[⟨1/2, -1/2⟩]]], [1]⟩ := by
    unfold freqresp
    rw [hfc]
    rfl
  exact ⟨h, fun p1 h1 p2 h2 x hx =>
    C3_phase_range wSys [1] _ h p1 h1 p2 h2 x hx⟩

/-- Claim C4: where no denominator has a pole at `j·ω`, `evalfr` returns
the `outputs × inputs` matrix of entrywise Horner quotients
`num(jω) / den(jω)`; concretely `TF([1,3,5],[1,6,2,-1])` at `ω = 1`
evaluates to `-0.5 - 0.5j`. -/
theorem C4_evalfr :
    (∀ A : TFMatrix, ∀ ω : ℚ, A.wf →
      (∀ r ∈ A.den, ∀ dp ∈ r, polyEval dp ⟨0, ω⟩ ≠ 0) →
      ∃ M, evalfr A ω = .ok M ∧ M.length = A.outputs ∧
        (∀ r ∈ M, r.length = A.inputs) ∧
        ∀ i j, i < A.outputs → j < A.inputs →
          (M.getD i []).getD j 0
            = polyEval (nPoly A i j) ⟨0, ω⟩ / polyEval (dPoly A i j) ⟨0, ω⟩)
    ∧ evalfr sysA 1 = .ok [[⟨-1/2, -1/2⟩]] := by
  refine ⟨?_, by decide⟩
  intro A ω hw hden
  refine ⟨_, evalAt_ok A ⟨0, ω⟩ hden, ?_, ?_, ?_⟩
  · rw [List.length_map, zip_num_den_length A hw]
  · intro r hr
    simp only [List.mem_map] at hr
    obtain ⟨pr, hpr, rfl⟩ := hr
    rw [List.length_map, List.length_zip]
    obtain ⟨e1, e2⟩ := mem_zip_num_den A hw hpr
    rw [e1, e2]
    exact min_self _
  · intro i j hi hj
    exact evalAt_entry A ⟨0, ω⟩ hw i j hi hj

/-- Witness for C4: the general evaluation statement applied to
`TF([1,3,5],[1,6,2,-1])` at `ω = 1`. -/
theorem C4_witness :
    (sysA.wf ∧ ∀ r ∈ sysA.den, ∀ dp ∈ r, polyEval dp ⟨0, 1⟩ ≠ 0)
    ∧ ∃ M, evalfr sysA 1 = .ok M ∧ M.length = sysA.outputs ∧
        (∀ r ∈ M, r.length = sysA.inputs) ∧
        ∀ i j, i < sysA.outputs → j < sysA.inputs →
          (M.getD i []).getD j 0
            = polyEval (nPoly sysA i j) ⟨0, 1⟩ / polyEval (dPoly sysA i j) ⟨0, 1⟩ := by
  have h1 : sysA.wf := by decide
  have h2 : ∀ r ∈ sysA.den, ∀ dp ∈ r, polyEval dp ⟨0, 1⟩ ≠ 0 := by decide
  exact ⟨⟨h1, h2⟩, C4_evalfr.1 sysA 1 h1 h2⟩

/-- Claim C9: `freqresp` returns magnitude and phase structures shaped
`outputs × inputs × len(omegas)` and passes the frequency sequence through
unchanged. -/
theorem C9_freqresp_shapes :
    ∀ A : TFMatrix, ∀ omegas : List ℚ, ∀ r : FreqResponse,
      A.wf → omegas ≠ [] → freqresp A omegas = .ok r →
      r.omega = omegas ∧
      r.mag.length = A.outputs ∧ (∀ m ∈ r.mag, m.length = A.inputs) ∧
      (∀ m ∈ r.mag, ∀ e ∈ m, e.length = omegas.length) ∧
      r.phase.length = A.outputs ∧ (∀ m ∈ r.phase, m.length = A.inputs) ∧
      (∀ m ∈ r.phase, ∀ e ∈ m, e.length = omegas.length) := by
  intro A omegas r hw hne h
  obtain ⟨c, hfc, hr⟩ :
      ∃ c, freqrespC A omegas = .ok c ∧ r = ⟨magOf c, phaseOf c, omegas⟩ := by
    unfold freqresp at h
    cases hfc : freqrespC A omegas <;> rw [hfc] at h
    · simp [Except.map] at h
    · rename_i c
      simp only [Except.map] at h
      exact ⟨c, rfl, (Except.ok.inj h).symm⟩
  obtain ⟨hclen, hcrow, hcent⟩ := freqrespC_shapes A omegas c hw hfc
  have key : ∀ f : CQ → ℝ,
      (c.map (fun r2 => r2.map (fun e => e.map f))).length = A.outputs ∧
      (∀ m ∈ c.map (fun r2 => r2.map (fun e => e.map f)), m.length = A.inputs) ∧
      (∀ m ∈ c.map (fun r2 => r2.map (fun e => e.map f)), ∀ e ∈ m,
        e.length = omegas.length) := by
    intro f
    refine ⟨by rw [List.length_map]; exact hclen, ?_, ?_⟩
    · intro m hm
      simp only [List.mem_map] at hm
      obtain ⟨m', hm', rfl⟩ := hm
      rw [List.length_map]
      exact hcrow m' hm'
    · intro m hm e he
      simp only [List.mem_map] at hm
      obtain ⟨m', hm', rfl⟩ := hm
      simp only [List.mem_map] at he
      obtain ⟨e', he', rfl⟩ := he
      rw [List.length_map]
      exact hcent m' hm' e' he'
  subst hr
  exact ⟨rfl, (key cqAbs).1, (key cqAbs).2.1, (key cqAbs).2.2,
    (key cqArg).1, (key cqArg).2.1, (key cqArg).2.2⟩

/-- Witness for C9: the shape statement applied to `1 / (s + 1)` at the
one-frequency sequence `[1]`. -/
theorem C9_witness :
    (wSys.wf ∧ ([1] : List ℚ) ≠ [] ∧
      freqresp wSys [1]
        = .ok ⟨magOf [[[⟨1/2, -1/2⟩]]], phaseOf [[[⟨1/2, -1/2⟩]]], [1]⟩)
    ∧ (magOf [[[⟨1/2, -1/2⟩]]]).length = wSys.outputs := by
  have hw : wSys.wf := by decide
  have hne : ([1] : List ℚ) ≠ [] := by decide
  have hfc : freqrespC wSys [1] = .ok [[[⟨1/2, -1/2⟩]]] := by decide
  have h : freqresp wSys [1]
      = .ok ⟨magOf [[[⟨1/2, -1/2⟩]]], phaseOf [[[⟨1/2, -1/2⟩]]], [1]⟩ := by
    unfold freqresp
    rw [hfc]
    rfl
  exact ⟨⟨hw, hne, h⟩, (C9_freqresp_shapes wSys [1] _ hw hne h).2.1⟩

end XferFcn
